import Mathlib

/-!
Verification development for `localization_benchmark_supervisor.py` of the
`localization_performance_modelling` repository.

The file embeds, as Lean definitions, the parts of the supervisor that the
verified properties are about:

* the waypoint planner of `LocalizationBenchmarkSupervisor.start_run`
  (deleaved reduced Voronoi graph, all-pairs Dijkstra costs, pruning of
  small connected components, greedy nearest-neighbour traversal);
* the goal-dispatch loop of `start_run` (send, bounded wait, classification
  by ground-truth distance, counters, run events);
* the `main` function's try/except/finally lifecycle;
* the telemetry callbacks (`amcl_particles_callback`,
  `ground_truth_pose_callback`) and `ps_snapshot_timer_callback`.

Machine floats of the Python code are modelled with `ℚ`; the float
square-root comparison of the distance check is modelled by an equivalent
rational comparison (justified by a lemma over `ℝ`).
-/

set_option maxHeartbeats 1000000

/-- An undirected weighted graph as used by the planner: the vertex list (as
networkx enumerates `voronoi_graph.nodes`), an edge-weight function (`none`
when there is no edge; the networkx attribute `voronoi_path_distance` gives
the weight), and the planar position attached to each vertex (the `vertex`
node attribute). Symmetry of `weight` is assumed as a hypothesis where
needed. -/
structure WGraph where
  nodes : List ℕ
  weight : ℕ → ℕ → Option ℚ
  pos : ℕ → ℚ × ℚ

/-- Adjacency: both endpoints are vertices of the graph and the edge exists. -/
def adjP (g : WGraph) (u v : ℕ) : Prop :=
  u ∈ g.nodes ∧ v ∈ g.nodes ∧ (g.weight u v).isSome

instance (g : WGraph) : DecidableRel (adjP g) := fun u v =>
  inferInstanceAs (Decidable (u ∈ g.nodes ∧ v ∈ g.nodes ∧ (g.weight u v).isSome))

/-- A walk in the graph: a nonempty list of vertices with consecutive
vertices adjacent. -/
def IsWalk (g : WGraph) (p : List ℕ) : Prop :=
  p ≠ [] ∧ (∀ x ∈ p, x ∈ g.nodes) ∧ List.Chain' (adjP g) p

/-- Boolean test for consecutive adjacency along a list. -/
def chainB (g : WGraph) : List ℕ → Bool
  | [] => true
  | [_] => true
  | a :: b :: t => decide (adjP g a b) && chainB g (b :: t)

theorem chainB_iff {g : WGraph} :
    ∀ p : List ℕ, chainB g p = true ↔ List.Chain' (adjP g) p
  | [] => by simp [chainB]
  | [a] => by simp [chainB]
  | a :: b :: t => by
    rw [chainB, Bool.and_eq_true, List.chain'_cons, chainB_iff (b :: t),
      decide_eq_true_eq]

/-- Boolean test for `IsWalk`. -/
def walkB (g : WGraph) (p : List ℕ) : Bool :=
  !p.isEmpty && p.all (fun x => decide (x ∈ g.nodes)) && chainB g p

theorem walkB_iff {g : WGraph} {p : List ℕ} : walkB g p = true ↔ IsWalk g p := by
  unfold walkB IsWalk
  rw [Bool.and_eq_true, Bool.and_eq_true, chainB_iff]
  constructor
  · rintro ⟨⟨h1, h2⟩, h3⟩
    refine ⟨?_, ?_, h3⟩
    · intro he
      subst he
      simp at h1
    · intro x hx
      have := List.all_eq_true.mp h2 x hx
      exact of_decide_eq_true this
  · rintro ⟨h1, h2, h3⟩
    refine ⟨⟨?_, ?_⟩, h3⟩
    · cases p with
      | nil => exact absurd rfl h1
      | cons a t => simp
    · exact List.all_eq_true.mpr (fun x hx => decide_eq_true (h2 x hx))

instance (g : WGraph) (p : List ℕ) : Decidable (IsWalk g p) :=
  decidable_of_iff (walkB g p = true) walkB_iff

/-- All duplicate-free lists over the vertex list `s` (the candidate simple
paths). -/
def nodupLists (s : List ℕ) : List (List ℕ) :=
  s.dedup.sublists.flatMap List.permutations'

/-- The simple paths from `u` to `v`: duplicate-free walks starting at `u`
and ending at `v`. -/
def sPaths (g : WGraph) (u v : ℕ) : List (List ℕ) :=
  (nodupLists g.nodes).filter
    (fun p => decide (IsWalk g p ∧ p.head? = some u ∧ p.getLast? = some v))

/-- Cost of a walk: the sum of the weights of its consecutive edges. -/
def walkCost (w : ℕ → ℕ → Option ℚ) : List ℕ → ℚ
  | [] => 0
  | [_] => 0
  | u :: v :: vs => ((w u v).getD 0) + walkCost w (v :: vs)

/-- Minimum of a list of rationals, `none` for the empty list. -/
def listMin : List ℚ → Option ℚ
  | [] => none
  | x :: xs =>
    match listMin xs with
    | none => some x
    | some m => some (min x m)

/-- Shortest-path cost between two vertices (the semantics of networkx's
`all_pairs_dijkstra_path_length` with nonnegative weights): the minimum cost
over simple paths, `none` when `v` is unreachable from `u`. -/
def spCost (g : WGraph) (u v : ℕ) : Option ℚ :=
  listMin ((sPaths g u v).map (walkCost g.weight))

/-- `v` is reachable from `u` (semantics of networkx connectivity: there is a
simple path; a vertex reaches itself by the one-vertex path). -/
def reachB (g : WGraph) (u v : ℕ) : Bool :=
  !(sPaths g u v).isEmpty

/-- The connected component of `u` as a set of vertices (semantics of
`set(nx.node_connected_component(...))`). -/
def component (g : WGraph) (u : ℕ) : Finset ℕ :=
  (g.nodes.filter (fun v => reachB g u v)).toFinset

/-- The graph after `start_run` removes every connected component with fewer
than two vertices (source lines 176-179). -/
def pruneGraph (g : WGraph) : WGraph :=
  { g with nodes := g.nodes.filter (fun u => decide (2 ≤ (component g u).card)) }

/-- The `costs` dictionary of `start_run` (lines 169-173): for vertex `i`,
the association list of pairs `(j, cost)` over the reachable vertices
`j ≠ i`, in the (fixed) enumeration order of the vertex set. It is computed
from the graph as given, before pruning, exactly as the source forces the
Dijkstra generators before `remove_nodes_from`. -/
def costsFn (g : WGraph) (i : ℕ) : List (ℕ × ℚ) :=
  g.nodes.filterMap
    (fun j => if j = i then none else (spCost g i j).map (fun c => (j, c)))

/-- `candidates[int(np.argmin(candidate_costs))]` (line 192): scan a nonempty
candidate list keeping the first pair of strictly smallest cost. -/
def selectMin : ℕ × ℚ → List (ℕ × ℚ) → ℕ × ℚ
  | p, [] => p
  | p, q :: r => if q.2 < p.2 then selectMin q r else selectMin p r

theorem selectMin_mem (p : ℕ × ℚ) (l : List (ℕ × ℚ)) : selectMin p l ∈ p :: l := by
  induction l generalizing p with
  | nil => simp [selectMin]
  | cons q r ih =>
    rw [selectMin]
    by_cases h : q.2 < p.2
    · rw [if_pos h]
      have := ih q
      simp only [List.mem_cons] at this ⊢
      tauto
    · rw [if_neg h]
      have := ih p
      simp only [List.mem_cons] at this ⊢
      tauto

/-- One selection of the greedy loop (lines 190-192): filter the cost
entries of the current vertex down to those whose key is still queued
(`candidates`), and take `candidates[int(np.argmin(candidate_costs))]`.
`none` models the `ValueError` raised by `zip(*candidates)` on an empty
candidate list. -/
def greedyNext (costs : ℕ → List (ℕ × ℚ)) (current : ℕ) (queue : Finset ℕ) :
    Option ℕ :=
  match (costs current).filter (fun nc => decide (nc.1 ∈ queue)) with
  | [] => none
  | c :: cs => some (selectMin c cs).1

theorem greedyNext_mem {costs : ℕ → List (ℕ × ℚ)} {current : ℕ}
    {queue : Finset ℕ} {next : ℕ}
    (h : greedyNext costs current queue = some next) : next ∈ queue := by
  unfold greedyNext at h
  split at h
  · exact absurd h (by simp)
  · next c cs heq =>
    simp only [Option.some.injEq] at h
    subst h
    have h1 : selectMin c cs ∈ c :: cs := selectMin_mem c cs
    rw [← heq] at h1
    exact of_decide_eq_true (List.mem_filter.mp h1).2

theorem greedyNext_isSome {costs : ℕ → List (ℕ × ℚ)} {current : ℕ}
    {queue : Finset ℕ} {j : ℕ} {c : ℚ}
    (hj : (j, c) ∈ costs current) (hjq : j ∈ queue) :
    ∃ next, greedyNext costs current queue = some next := by
  unfold greedyNext
  split
  · next heq =>
    exfalso
    have : (j, c) ∈ (costs current).filter (fun nc => decide (nc.1 ∈ queue)) :=
      List.mem_filter.mpr ⟨hj, decide_eq_true hjq⟩
    rw [heq] at this
    exact List.not_mem_nil _ this
  · exact ⟨_, rfl⟩

/-- The greedy traversal loop of `start_run` (lines 189-195): while the queue
of unvisited vertices of the starting component is nonempty, move to the
queued candidate of minimum precomputed cost and append it; `none` models
the `ValueError` on an empty candidate list. -/
def greedyLoop (costs : ℕ → List (ℕ × ℚ)) (current : ℕ) (queue : Finset ℕ) :
    Option (List ℕ) :=
  if hq : queue.Nonempty then
    match hn : greedyNext costs current queue with
    | none => none
    | some next =>
      have hnext : next ∈ queue := greedyNext_mem hn
      (greedyLoop costs next (queue.erase next)).map (fun rest => next :: rest)
  else
    some []
termination_by queue.card
decreasing_by exact Finset.card_erase_lt_of_mem hnext

/-- Outcome of the planning phase of `start_run` (lines 166-195). -/
inductive PlanResult where
  | ok (tour : List ℕ)
  | insufficientNodes
  | valueError
  deriving DecidableEq

/-- The planner of `start_run`: compute the all-pairs Dijkstra costs of the
given graph (lines 167-173, forced before pruning), prune connected
components with fewer than two vertices (lines 176-179), fail when fewer
than two vertices remain (lines 181-183), and otherwise run the greedy
traversal from the chosen start vertex over its connected component in the
pruned graph (lines 185-195). -/
def planTraversal (g : WGraph) (start : ℕ) : PlanResult :=
  if (pruneGraph g).nodes.length < 2 then
    PlanResult.insufficientNodes
  else
    match greedyLoop (costsFn g) start (component (pruneGraph g) start) with
    | some tour => PlanResult.ok tour
    | none => PlanResult.valueError

/-! ### Basic lemmas about the path enumeration and `listMin` -/

theorem mem_nodupLists {s : List ℕ} {p : List ℕ}
    (hnd : p.Nodup) (hmem : ∀ x ∈ p, x ∈ s) : p ∈ nodupLists s := by
  have hsub : p ⊆ s.dedup := fun x hx => (List.mem_dedup).mpr (hmem x hx)
  obtain ⟨l, hperm, hsl⟩ := List.subperm_of_subset hnd hsub
  unfold nodupLists
  rw [List.mem_flatMap]
  exact ⟨l, List.mem_sublists.mpr hsl, List.mem_permutations'.mpr hperm.symm⟩

theorem nodupLists_spec {s : List ℕ} {p : List ℕ}
    (h : p ∈ nodupLists s) : p.Nodup ∧ ∀ x ∈ p, x ∈ s := by
  unfold nodupLists at h
  rw [List.mem_flatMap] at h
  obtain ⟨l, hl, hp⟩ := h
  rw [List.mem_sublists] at hl
  rw [List.mem_permutations'] at hp
  have hlnd : l.Nodup := (List.nodup_dedup s).sublist hl
  refine ⟨hp.nodup_iff.mpr hlnd, fun x hx => ?_⟩
  have : x ∈ l := (hp.mem_iff).mp hx
  exact List.mem_dedup.mp (hl.subset this)

theorem mem_sPaths_iff {g : WGraph} {u v : ℕ} {p : List ℕ} :
    p ∈ sPaths g u v ↔
      p.Nodup ∧ IsWalk g p ∧ p.head? = some u ∧ p.getLast? = some v := by
  unfold sPaths
  rw [List.mem_filter]
  constructor
  · rintro ⟨h1, h2⟩
    have := of_decide_eq_true h2
    exact ⟨(nodupLists_spec h1).1, this.1, this.2.1, this.2.2⟩
  · rintro ⟨hnd, hw, hh, hl⟩
    exact ⟨mem_nodupLists hnd hw.2.1, decide_eq_true ⟨hw, hh, hl⟩⟩

theorem listMin_eq_none_iff {l : List ℚ} : listMin l = none ↔ l = [] := by
  cases l with
  | nil => simp [listMin]
  | cons x xs =>
    simp only [listMin]
    cases listMin xs <;> simp

theorem listMin_mem {l : List ℚ} {m : ℚ} (h : listMin l = some m) : m ∈ l := by
  induction l generalizing m with
  | nil => simp [listMin] at h
  | cons x xs ih =>
    rw [listMin] at h
    cases hx : listMin xs with
    | none =>
      rw [hx] at h
      simp only [Option.some.injEq] at h
      simp [← h]
    | some m' =>
      rw [hx] at h
      simp only [Option.some.injEq] at h
      rcases min_cases x m' with ⟨heq, _⟩ | ⟨heq, _⟩
      · simp [← h, heq]
      · have := ih hx
        rw [← h, heq]
        simp [this]

theorem listMin_le {l : List ℚ} {m : ℚ} (h : listMin l = some m) :
    ∀ x ∈ l, m ≤ x := by
  induction l generalizing m with
  | nil => simp
  | cons x xs ih =>
    rw [listMin] at h
    cases hx : listMin xs with
    | none =>
      rw [hx] at h
      simp only [Option.some.injEq] at h
      rw [listMin_eq_none_iff] at hx
      subst hx
      simp [← h]
    | some m' =>
      rw [hx] at h
      simp only [Option.some.injEq] at h
      intro y hy
      rcases List.mem_cons.mp hy with rfl | hy'
      · rw [← h]; exact min_le_left _ _
      · rw [← h]
        exact le_trans (min_le_right _ _) (ih hx y hy')

theorem listMin_eq_of_mem_iff {l₁ l₂ : List ℚ}
    (h : ∀ x, x ∈ l₁ ↔ x ∈ l₂) : listMin l₁ = listMin l₂ := by
  cases h1 : listMin l₁ with
  | none =>
    rw [listMin_eq_none_iff] at h1
    subst h1
    cases h2 : listMin l₂ with
    | none => rfl
    | some m => exact absurd ((h m).mpr (listMin_mem h2)) (List.not_mem_nil m)
  | some m =>
    cases h2 : listMin l₂ with
    | none =>
      rw [listMin_eq_none_iff] at h2
      subst h2
      exact absurd ((h m).mp (listMin_mem h1)) (List.not_mem_nil m)
    | some m' =>
      have hm : m ∈ l₂ := (h m).mp (listMin_mem h1)
      have hm' : m' ∈ l₁ := (h m').mpr (listMin_mem h2)
      have := le_antisymm (listMin_le h1 m' hm') (listMin_le h2 m hm)
      rw [this]

/-! ### Walk manipulation lemmas -/

theorem adjP_symm {g : WGraph} (hsym : ∀ u v, g.weight u v = g.weight v u)
    {u v : ℕ} (h : adjP g u v) : adjP g v u := by
  obtain ⟨h1, h2, h3⟩ := h
  exact ⟨h2, h1, by rw [hsym v u]; exact h3⟩

theorem IsWalk.reverse {g : WGraph} {p : List ℕ}
    (hsym : ∀ u v, g.weight u v = g.weight v u) (h : IsWalk g p) :
    IsWalk g p.reverse := by
  obtain ⟨h1, h2, h3⟩ := h
  refine ⟨by simpa using h1, fun x hx => h2 x (List.mem_reverse.mp hx), ?_⟩
  rw [List.chain'_reverse]
  exact h3.imp (fun a b hab => adjP_symm hsym hab)

theorem IsWalk.append {g : WGraph} {p q : List ℕ}
    (hp : IsWalk g p) (hq : IsWalk g q) (hlink : p.getLast? = q.head?) :
    IsWalk g (p ++ q.tail) ∧ (p ++ q.tail).head? = p.head? ∧
      (p ++ q.tail).getLast? = q.getLast? := by
  obtain ⟨hp1, hp2, hp3⟩ := hp
  obtain ⟨hq1, hq2, hq3⟩ := hq
  cases q with
  | nil => exact absurd rfl hq1
  | cons b q' =>
    have hlastp : p.getLast? = some b := by rw [hlink]; rfl
    constructor
    · refine ⟨by simp [hp1], ?_, ?_⟩
      · intro x hx
        rcases List.mem_append.mp hx with hx | hx
        · exact hp2 x hx
        · exact hq2 x (List.mem_cons_of_mem b hx)
      · rw [List.chain'_append]
        refine ⟨hp3, hq3.tail, ?_⟩
        intro x hx y hy
        rw [hlastp] at hx
        simp only [Option.mem_def, Option.some.injEq] at hx
        subst hx
        exact (List.chain'_cons'.mp hq3).1 y hy
    constructor
    · cases p with
      | nil => exact absurd rfl hp1
      | cons a p' => simp
    · cases hq' : q' with
      | nil =>
        subst hq'
        simp only [List.tail_cons, List.append_nil]
        rw [hlastp]
        rfl
      | cons c q'' =>
        subst hq'
        simp only [List.tail_cons]
        rw [List.getLast?_append_of_ne_nil _ (by simp), List.getLast?_cons_cons]

theorem pair_sublist_decomp {x : ℕ} :
    ∀ p : List ℕ, List.Sublist [x, x] p → ∃ a b c, p = a ++ x :: (b ++ x :: c) := by
  intro p
  induction p with
  | nil => intro h; exact absurd (List.sublist_nil.mp h) (by simp)
  | cons y p' ih =>
    intro h
    cases h with
    | cons _ h' =>
      obtain ⟨a, b, c, rfl⟩ := ih h'
      exact ⟨y :: a, b, c, rfl⟩
    | cons₂ _ h' =>
      have hx : x ∈ p' := (List.singleton_sublist).mp h'
      obtain ⟨b, c, rfl⟩ := List.append_of_mem hx
      exact ⟨[], b, c, rfl⟩

theorem IsWalk.shortcut {g : WGraph} {a b c : List ℕ} {x : ℕ}
    (h : IsWalk g (a ++ x :: (b ++ x :: c))) :
    IsWalk g (a ++ x :: c) ∧
      (a ++ x :: c).head? = (a ++ x :: (b ++ x :: c)).head? ∧
      (a ++ x :: c).getLast? = (a ++ x :: (b ++ x :: c)).getLast? := by
  obtain ⟨_, h2, h3⟩ := h
  have hx : x ∈ g.nodes := h2 x (by simp)
  have hchain : List.Chain' (adjP g) (a ++ x :: c) := by
    have hre : a ++ x :: (b ++ x :: c) = a ++ (x :: b) ++ (x :: c) := by simp
    rw [hre, List.chain'_append, List.chain'_append] at h3
    obtain ⟨⟨ha, _, hlink1⟩, hxc, hlink2⟩ := h3
    rw [List.chain'_append]
    refine ⟨ha, hxc, ?_⟩
    intro y hy z hz
    apply hlink1 y hy
    cases a with
    | nil => simp at hy
    | cons a0 a' => simpa using hz
  refine ⟨⟨by simp, ?_, hchain⟩, ?_, ?_⟩
  · intro y hy
    apply h2
    rcases List.mem_append.mp hy with hy | hy
    · exact List.mem_append.mpr (Or.inl hy)
    · rcases List.mem_cons.mp hy with rfl | hy'
      · simp
      · simp [hy']
  · cases a <;> simp
  · rw [List.getLast?_append_of_ne_nil _ (by simp : x :: c ≠ []),
      List.getLast?_append_of_ne_nil _ (by simp : x :: (b ++ x :: c) ≠ [])]
    cases c with
    | nil =>
      rw [show x :: (b ++ x :: []) = (x :: b) ++ [x] by simp]
      rw [List.getLast?_append_of_ne_nil _ (by simp)]
    | cons c0 c' =>
      rw [show x :: (b ++ x :: c0 :: c') = (x :: (b ++ [x])) ++ c0 :: c' by simp]
      rw [List.getLast?_append_of_ne_nil _ (by simp), List.getLast?_cons_cons]

theorem exists_nodup_walk {g : WGraph} :
    ∀ (n : ℕ) (p : List ℕ), p.length ≤ n → IsWalk g p →
      ∀ u v, p.head? = some u → p.getLast? = some v →
      ∃ q, q.Nodup ∧ IsWalk g q ∧ q.head? = some u ∧ q.getLast? = some v ∧
        ∀ x ∈ q, x ∈ p := by
  intro n
  induction n with
  | zero =>
    intro p hlen hw u v _ _
    have hp : p = [] := List.length_eq_zero.mp (Nat.le_zero.mp hlen)
    exact absurd hp hw.1
  | succ n ih =>
    intro p hlen hw u v hh hl
    by_cases hnd : p.Nodup
    · exact ⟨p, hnd, hw, hh, hl, fun x hx => hx⟩
    · obtain ⟨x, hdup⟩ := List.exists_duplicate_iff_not_nodup.mpr hnd
      obtain ⟨a, b, c, rfl⟩ :=
        pair_sublist_decomp _ (List.duplicate_iff_sublist.mp hdup)
      obtain ⟨hw', hh', hl'⟩ := hw.shortcut
      have hlen' : (a ++ x :: c).length ≤ n := by
        have : (a ++ x :: c).length < (a ++ x :: (b ++ x :: c)).length := by
          simp; omega
        omega
      obtain ⟨q, hqnd, hqw, hqh, hql, hqsub⟩ :=
        ih (a ++ x :: c) hlen' hw' u v (hh' ▸ hh) (hl' ▸ hl)
      refine ⟨q, hqnd, hqw, hqh, hql, fun y hy => ?_⟩
      have := hqsub y hy
      rcases List.mem_append.mp this with hy' | hy'
      · exact List.mem_append.mpr (Or.inl hy')
      · rcases List.mem_cons.mp hy' with rfl | hy''
        · simp
        · simp [hy'']

/-! ### Reachability, components, pruning -/

theorem reachB_iff {g : WGraph} {u v : ℕ} :
    reachB g u v = true ↔ ∃ p, p ∈ sPaths g u v := by
  unfold reachB
  cases hs : sPaths g u v with
  | nil => simp
  | cons p ps =>
    simp only [List.isEmpty_cons, Bool.not_false, true_iff]
    exact ⟨p, List.mem_cons_self p ps⟩

theorem reachB_refl {g : WGraph} {u : ℕ} (hu : u ∈ g.nodes) :
    reachB g u u = true := by
  refine reachB_iff.mpr ⟨[u], mem_sPaths_iff.mpr ⟨by simp, ?_, rfl, rfl⟩⟩
  exact ⟨by simp, by simp [hu], by simp⟩

theorem mem_component_iff {g : WGraph} {u v : ℕ} :
    v ∈ component g u ↔ v ∈ g.nodes ∧ reachB g u v = true := by
  simp [component]

theorem mem_pruneGraph_iff {g : WGraph} {u : ℕ} :
    u ∈ (pruneGraph g).nodes ↔ u ∈ g.nodes ∧ 2 ≤ (component g u).card := by
  simp [pruneGraph]

theorem chain'_of_chain'_mem {r s : ℕ → ℕ → Prop} :
    ∀ {l : List ℕ}, (∀ a ∈ l, ∀ b ∈ l, r a b → s a b) → List.Chain' r l →
      List.Chain' s l := by
  intro l
  induction l with
  | nil => intro _ _; simp
  | cons a t ih =>
    intro h hc
    cases t with
    | nil => simp
    | cons b t' =>
      rw [List.chain'_cons] at hc ⊢
      refine ⟨h a (by simp) b (by simp) hc.1, ?_⟩
      exact ih (fun x hx y hy => h x (by simp [hx]) y (by simp [hy])) hc.2

theorem IsWalk.of_prune {g : WGraph} {p : List ℕ}
    (h : IsWalk (pruneGraph g) p) : IsWalk g p := by
  obtain ⟨h1, h2, h3⟩ := h
  refine ⟨h1, fun x hx => (mem_pruneGraph_iff.mp (h2 x hx)).1, ?_⟩
  refine h3.imp (fun a b hab => ?_)
  obtain ⟨ha, hb, hw⟩ := hab
  exact ⟨(mem_pruneGraph_iff.mp ha).1, (mem_pruneGraph_iff.mp hb).1, hw⟩

theorem IsWalk.prune_of_mem {g : WGraph} {p : List ℕ}
    (h : IsWalk g p) (hmem : ∀ x ∈ p, x ∈ (pruneGraph g).nodes) :
    IsWalk (pruneGraph g) p := by
  obtain ⟨h1, _, h3⟩ := h
  refine ⟨h1, hmem, ?_⟩
  refine chain'_of_chain'_mem (fun a ha b hb hab => ?_) h3
  exact ⟨hmem a ha, hmem b hb, hab.2.2⟩

/-- Every vertex on a duplicate-free walk that starts at a vertex surviving
the pruning also survives the pruning: the walk stays inside the start
vertex's connected component, and pruning removes only whole components. -/
theorem walk_stays_pruned {g : WGraph} {p : List ℕ} {u : ℕ}
    (hsym : ∀ u' v', g.weight u' v' = g.weight v' u')
    (hnd : p.Nodup) (hw : IsWalk g p) (hh : p.head? = some u)
    (hu : u ∈ (pruneGraph g).nodes) :
    ∀ x ∈ p, x ∈ (pruneGraph g).nodes := by
  intro x hx
  by_cases hxu : x = u
  · exact hxu ▸ hu
  obtain ⟨a, c, rfl⟩ := List.append_of_mem hx
  -- the prefix of the walk up to `x` is a duplicate-free walk from `u` to `x`
  have hq : IsWalk g (a ++ [x]) := by
    obtain ⟨_, h2, h3⟩ := hw
    refine ⟨by simp, ?_, ?_⟩
    · intro y hy
      apply h2
      rcases List.mem_append.mp hy with hy | hy
      · exact List.mem_append.mpr (Or.inl hy)
      · simp [List.mem_singleton.mp hy]
    · have : a ++ x :: c = (a ++ [x]) ++ c := by simp
      rw [this, List.chain'_append] at h3
      exact h3.1
  have hqnd : (a ++ [x]).Nodup := by
    refine hnd.sublist ?_
    exact (List.Sublist.append_left (by simp) a)
  have hqh : (a ++ [x]).head? = some u := by
    cases a with
    | nil => simpa using hh
    | cons a0 a' => simpa using hh
  have hql : (a ++ [x]).getLast? = some x := by
    rw [List.getLast?_append_of_ne_nil _ (by simp)]
    rfl
  -- reverse it: a duplicate-free walk from `x` to `u`, so `u ∈ component g x`
  have hrw : IsWalk g (a ++ [x]).reverse := hq.reverse hsym
  have hrnd : (a ++ [x]).reverse.Nodup := List.nodup_reverse.mpr hqnd
  have hrh : (a ++ [x]).reverse.head? = some x := by
    rw [List.head?_reverse]; exact hql
  have hrl : (a ++ [x]).reverse.getLast? = some u := by
    rw [List.getLast?_reverse]; exact hqh
  have hreach : reachB g x u = true :=
    reachB_iff.mpr ⟨_, mem_sPaths_iff.mpr ⟨hrnd, hrw, hrh, hrl⟩⟩
  have hxn : x ∈ g.nodes := hw.2.1 x hx
  have hun : u ∈ g.nodes := (mem_pruneGraph_iff.mp hu).1
  have hsub : ({x, u} : Finset ℕ) ⊆ component g x := by
    intro y hy
    rcases Finset.mem_insert.mp hy with rfl | hy
    · exact mem_component_iff.mpr ⟨hxn, reachB_refl hxn⟩
    · rw [Finset.mem_singleton] at hy
      subst hy
      exact mem_component_iff.mpr ⟨hun, hreach⟩
  have hcard : 2 ≤ (component g x).card := by
    have h2 : ({x, u} : Finset ℕ).card = 2 := Finset.card_pair hxu
    calc 2 = ({x, u} : Finset ℕ).card := h2.symm
    _ ≤ (component g x).card := Finset.card_le_card hsub
  exact mem_pruneGraph_iff.mpr ⟨hxn, hcard⟩

/-- For a start vertex surviving the pruning, the simple paths out of it are
the same in the original and in the pruned graph. -/
theorem mem_sPaths_prune_iff {g : WGraph} {i j : ℕ} {p : List ℕ}
    (hsym : ∀ u v, g.weight u v = g.weight v u)
    (hi : i ∈ (pruneGraph g).nodes) :
    p ∈ sPaths g i j ↔ p ∈ sPaths (pruneGraph g) i j := by
  rw [mem_sPaths_iff, mem_sPaths_iff]
  constructor
  · rintro ⟨hnd, hw, hh, hl⟩
    exact ⟨hnd, hw.prune_of_mem (walk_stays_pruned hsym hnd hw hh hi), hh, hl⟩
  · rintro ⟨hnd, hw, hh, hl⟩
    exact ⟨hnd, hw.of_prune, hh, hl⟩

theorem spCost_prune {g : WGraph} {i j : ℕ}
    (hsym : ∀ u v, g.weight u v = g.weight v u)
    (hi : i ∈ (pruneGraph g).nodes) :
    spCost g i j = spCost (pruneGraph g) i j := by
  unfold spCost
  have hweq : (pruneGraph g).weight = g.weight := rfl
  rw [hweq]
  refine listMin_eq_of_mem_iff (fun x => ?_)
  rw [List.mem_map, List.mem_map]
  constructor
  · rintro ⟨p, hp, rfl⟩
    exact ⟨p, (mem_sPaths_prune_iff hsym hi).mp hp, rfl⟩
  · rintro ⟨p, hp, rfl⟩
    exact ⟨p, (mem_sPaths_prune_iff hsym hi).mpr hp, rfl⟩

/-! ### Coverage of the cost dictionary over a pruned component -/

theorem mem_of_getLast?_eq {p : List ℕ} {v : ℕ} (h : p.getLast? = some v) :
    v ∈ p := by
  induction p with
  | nil => simp at h
  | cons a t ih =>
    cases t with
    | nil =>
      simp only [List.getLast?_singleton, Option.some.injEq] at h
      simp [h]
    | cons b t' =>
      rw [List.getLast?_cons_cons] at h
      exact List.mem_cons_of_mem _ (ih h)

theorem spCost_isSome_of_sPaths {g : WGraph} {i j : ℕ} {p : List ℕ}
    (hp : p ∈ sPaths g i j) : ∃ c, spCost g i j = some c := by
  unfold spCost
  cases hm : listMin ((sPaths g i j).map (walkCost g.weight)) with
  | none =>
    rw [listMin_eq_none_iff] at hm
    have : walkCost g.weight p ∈ (sPaths g i j).map (walkCost g.weight) :=
      List.mem_map.mpr ⟨p, hp, rfl⟩
    rw [hm] at this
    exact absurd this (List.not_mem_nil _)
  | some c => exact ⟨c, rfl⟩

/-- The `costs` dictionary computed by `start_run` has an entry `costs[i][j]`
for every ordered pair of distinct vertices of the connected component of the
start vertex in the pruned graph. -/
theorem costsFn_cover {g : WGraph} {start : ℕ}
    (hsym : ∀ u v, g.weight u v = g.weight v u)
    (hstart : start ∈ (pruneGraph g).nodes) :
    ∀ i ∈ component (pruneGraph g) start, ∀ j ∈ component (pruneGraph g) start,
      j ≠ i → ∃ c, (j, c) ∈ costsFn g i := by
  intro i hi j hj hne
  obtain ⟨hin, hir⟩ := mem_component_iff.mp hi
  obtain ⟨hjn, hjr⟩ := mem_component_iff.mp hj
  -- a (possibly repeating) walk from i to j in the pruned graph
  obtain ⟨p, hp⟩ := reachB_iff.mp hir
  obtain ⟨q, hq⟩ := reachB_iff.mp hjr
  obtain ⟨hpnd, hpw, hph, hpl⟩ := mem_sPaths_iff.mp hp
  obtain ⟨hqnd, hqw, hqh, hql⟩ := mem_sPaths_iff.mp hq
  have hsym' : ∀ u v, (pruneGraph g).weight u v = (pruneGraph g).weight v u := hsym
  have hrw : IsWalk (pruneGraph g) p.reverse := hpw.reverse hsym'
  have hrh : p.reverse.head? = some i := by rw [List.head?_reverse]; exact hpl
  have hrl : p.reverse.getLast? = some start := by
    rw [List.getLast?_reverse]; exact hph
  obtain ⟨happw, happh, happl⟩ := hrw.append hqw (by rw [hrl, hqh])
  -- deduplicate it
  obtain ⟨r, hrnd, hrw', hrh', hrl', _⟩ :=
    exists_nodup_walk (p.reverse ++ q.tail).length (p.reverse ++ q.tail)
      le_rfl happw i j (by rw [happh]; exact hrh) (by rw [happl]; exact hql)
  have hrpg : r ∈ sPaths (pruneGraph g) i j :=
    mem_sPaths_iff.mpr ⟨hrnd, hrw', hrh', hrl'⟩
  have hrg : r ∈ sPaths g i j := (mem_sPaths_prune_iff hsym hin).mpr hrpg
  obtain ⟨c, hc⟩ := spCost_isSome_of_sPaths hrg
  refine ⟨c, ?_⟩
  unfold costsFn
  rw [List.mem_filterMap]
  refine ⟨j, (mem_pruneGraph_iff.mp hjn).1, ?_⟩
  rw [if_neg hne, hc]
  rfl

/-- A start vertex that survives the pruning has at least two vertices in
its connected component of the pruned graph. -/
theorem component_prune_two {g : WGraph} {start : ℕ}
    (hsym : ∀ u v, g.weight u v = g.weight v u)
    (hstart : start ∈ (pruneGraph g).nodes) :
    2 ≤ (component (pruneGraph g) start).card := by
  obtain ⟨hsn, hcard⟩ := mem_pruneGraph_iff.mp hstart
  have hone : 1 < (component g start).card := by omega
  obtain ⟨v, hv, hvne⟩ := Finset.exists_ne_of_one_lt_card hone start
  obtain ⟨hvn, hvreach⟩ := mem_component_iff.mp hv
  obtain ⟨p, hp⟩ := reachB_iff.mp hvreach
  obtain ⟨hnd, hw, hh, hl⟩ := mem_sPaths_iff.mp hp
  have hmem := walk_stays_pruned hsym hnd hw hh hstart
  have hpw : IsWalk (pruneGraph g) p := hw.prune_of_mem hmem
  have hreach : reachB (pruneGraph g) start v = true :=
    reachB_iff.mpr ⟨p, mem_sPaths_iff.mpr ⟨hnd, hpw, hh, hl⟩⟩
  have hvprun : v ∈ (pruneGraph g).nodes := hmem v (mem_of_getLast?_eq hl)
  have hsub : ({start, v} : Finset ℕ) ⊆ component (pruneGraph g) start := by
    intro y hy
    rcases Finset.mem_insert.mp hy with rfl | hy
    · exact mem_component_iff.mpr ⟨hstart, reachB_refl hstart⟩
    · rw [Finset.mem_singleton] at hy
      subst hy
      exact mem_component_iff.mpr ⟨hvprun, hreach⟩
  calc 2 = ({start, v} : Finset ℕ).card := (Finset.card_pair (Ne.symm hvne)).symm
  _ ≤ (component (pruneGraph g) start).card := Finset.card_le_card hsub

/-! ### The greedy loop visits every queued vertex exactly once -/

theorem greedyLoop_covers {costs : ℕ → List (ℕ × ℚ)} {comp : Finset ℕ}
    (hcov : ∀ i ∈ comp, ∀ j ∈ comp, j ≠ i → ∃ c, (j, c) ∈ costs i) :
    ∀ (n : ℕ) (queue : Finset ℕ), queue.card ≤ n → queue ⊆ comp →
      ∀ current ∈ comp, (current ∉ queue ∨ 2 ≤ queue.card) →
      ∃ tour, greedyLoop costs current queue = some tour ∧ tour.Nodup ∧
        tour.toFinset = queue := by
  intro n
  induction n with
  | zero =>
    intro queue hcard _ current _ _
    have hq : queue = ∅ := Finset.card_eq_zero.mp (Nat.le_zero.mp hcard)
    subst hq
    exact ⟨[], by rw [greedyLoop, dif_neg (by simp)], by simp, by simp⟩
  | succ n ih =>
    intro queue hcard hsub current hcur hdisj
    by_cases hq : queue.Nonempty
    case neg =>
      have hqe : queue = ∅ := Finset.not_nonempty_iff_eq_empty.mp hq
      subst hqe
      exact ⟨[], by rw [greedyLoop, dif_neg (by simp)], by simp, by simp⟩
    case pos =>
      have hjex : ∃ j ∈ queue, j ≠ current := by
        by_cases hcq : current ∈ queue
        · have h2 : 2 ≤ queue.card := by
            rcases hdisj with h | h
            · exact absurd hcq h
            · exact h
          have hone : 1 < queue.card := by omega
          obtain ⟨b, hb, hbne⟩ := Finset.exists_ne_of_one_lt_card hone current
          exact ⟨b, hb, hbne⟩
        · obtain ⟨j, hj⟩ := hq
          exact ⟨j, hj, fun h => hcq (h ▸ hj)⟩
      obtain ⟨j, hjq, hjne⟩ := hjex
      obtain ⟨c, hc⟩ := hcov current hcur j (hsub hjq) hjne
      obtain ⟨next, hn⟩ := greedyNext_isSome hc hjq
      have hnextq : next ∈ queue := greedyNext_mem hn
      have hcard' : (queue.erase next).card ≤ n := by
        have := Finset.card_erase_lt_of_mem hnextq
        omega
      obtain ⟨rest, hrest, hrnd, hrfin⟩ :=
        ih (queue.erase next)
          hcard' (fun x hx => hsub (Finset.mem_of_mem_erase hx))
          next (hsub hnextq) (Or.inl (Finset.not_mem_erase next queue))
      refine ⟨next :: rest, ?_, ?_, ?_⟩
      · rw [greedyLoop, dif_pos hq]
        split
        · next heq =>
          rw [hn] at heq
          exact absurd heq (by simp)
        · next next' heq =>
          rw [hn, Option.some.injEq] at heq
          subst heq
          rw [hrest]
          rfl
      · rw [List.nodup_cons]
        refine ⟨?_, hrnd⟩
        rw [← List.mem_toFinset, hrfin]
        exact Finset.not_mem_erase _ _
      · rw [List.toFinset_cons, hrfin, Finset.insert_erase hnextq]

/-- **C1**: For every pruned graph whose starting connected component has at
least two vertices (equivalently: for every start vertex surviving the
pruning, since pruning removes all components with fewer than two vertices),
the greedy tour built by the planner contains each vertex of the starting
component exactly once — no vertex duplicated, none omitted, the start
vertex included — and hence has length equal to the component's cardinality;
for a single-component graph this is the total vertex count N, for every
possible start vertex. -/
theorem C1_greedy_tour_visits_component_exactly_once (g : WGraph) (start : ℕ)
    (hsym : ∀ u v, g.weight u v = g.weight v u)
    (hstart : start ∈ (pruneGraph g).nodes) :
    ∃ tour, planTraversal g start = PlanResult.ok tour ∧ tour.Nodup ∧
      tour.toFinset = component (pruneGraph g) start ∧
      tour.length = (component (pruneGraph g) start).card := by
  have hcov := costsFn_cover hsym hstart
  have htwo := component_prune_two hsym hstart
  have hcur : start ∈ component (pruneGraph g) start :=
    mem_component_iff.mpr ⟨hstart, reachB_refl hstart⟩
  obtain ⟨tour, hloop, hnd, hfin⟩ :=
    greedyLoop_covers hcov (component (pruneGraph g) start).card
      (component (pruneGraph g) start) le_rfl (fun x hx => hx) start hcur
      (Or.inr htwo)
  have hge : 2 ≤ (pruneGraph g).nodes.length := by
    have h1 := List.toFinset_card_le
      ((pruneGraph g).nodes.filter (fun v => reachB (pruneGraph g) start v))
    have h2 := List.length_filter_le
      (fun v => reachB (pruneGraph g) start v) (pruneGraph g).nodes
    have h3 : 2 ≤ (component (pruneGraph g) start).card := htwo
    unfold component at h3
    omega
  refine ⟨tour, ?_, hnd, hfin, ?_⟩
  · unfold planTraversal
    rw [if_neg (by omega), hloop]
  · rw [← hfin]
    exact (List.toFinset_card_of_nodup hnd).symm

/-- Concrete graph for witnesses: vertices 0, 1, 2 forming a path
0 — 1 — 2 with unit edge weights (symmetric by construction). -/
def egBase : ℕ → ℕ → Option ℚ := fun u v =>
  if u = 0 ∧ v = 1 then some 1 else if u = 1 ∧ v = 2 then some 1 else none

/-- The witness graph as a `WGraph`. -/
def egW : WGraph where
  nodes := {0, 1, 2}
  weight := fun u v => egBase (min u v) (max u v)
  pos := fun _ => (0, 0)

theorem egW_symm : ∀ u v, egW.weight u v = egW.weight v u := by
  intro u v
  show egBase (min u v) (max u v) = egBase (min v u) (max v u)
  rw [min_comm v u, max_comm v u]

/-- Witness for C1 at the concrete graph `egW` with start vertex 0. -/
theorem C1_witness :
    0 ∈ (pruneGraph egW).nodes ∧
      ∃ tour, planTraversal egW 0 = PlanResult.ok tour ∧ tour.Nodup ∧
        tour.toFinset = component (pruneGraph egW) 0 ∧
        tour.length = (component (pruneGraph egW) 0).card :=
  ⟨by decide, C1_greedy_tour_visits_component_exactly_once egW 0 egW_symm
    (by decide)⟩

/-! ### C9: order of the planning phases, and the costs the greedy loop uses -/

/-- The four phases of the planning section of `start_run`. -/
inductive PlanPhase where
  | computeCosts
  | pruneComponents
  | checkEnoughNodes
  | greedySelection
  deriving DecidableEq

/-- The phases in the order the source executes them: the all-pairs Dijkstra
costs are forced on lines 167-173 (`dict(nx.all_pairs_dijkstra_path_length
(voronoi_graph, ...))` evaluates eagerly, and the `for i, paths_dict in
minimum_length_paths` loop consumes the path generator) *before* the pruning
of small components on lines 176-179 and the vertex-count check on lines
181-183; the greedy selection follows on lines 185-195. -/
def planPhaseOrder : List PlanPhase :=
  [PlanPhase.computeCosts, PlanPhase.pruneComponents,
    PlanPhase.checkEnoughNodes, PlanPhase.greedySelection]

/-- **C9 counterexample**: the claim's stated order — prune, then check, and
only then compute the all-pairs shortest-path costs — is not the order in
which the source executes the planning phases: the costs are computed first,
over the unpruned graph. -/
theorem C9_order_counterexample :
    planPhaseOrder ≠
      [PlanPhase.pruneComponents, PlanPhase.checkEnoughNodes,
        PlanPhase.computeCosts, PlanPhase.greedySelection] := by
  decide

theorem spCost_eq_none_of_not_pruned {g : WGraph} {i j : ℕ}
    (hsym : ∀ u v, g.weight u v = g.weight v u)
    (hi : i ∈ (pruneGraph g).nodes) (hj : j ∉ (pruneGraph g).nodes) :
    spCost g i j = none := by
  unfold spCost
  rw [listMin_eq_none_iff]
  cases hs : sPaths g i j with
  | nil => simp
  | cons p ps =>
    exfalso
    have hp : p ∈ sPaths g i j := hs ▸ List.mem_cons_self p ps
    obtain ⟨hnd, hw, hh, hl⟩ := mem_sPaths_iff.mp hp
    exact hj (walk_stays_pruned hsym hnd hw hh hi j (mem_of_getLast?_eq hl))

theorem filterMap_eq_filterMap_filter {f : ℕ → Option (ℕ × ℚ)} {q : ℕ → Bool} :
    ∀ l : List ℕ, (∀ j ∈ l, q j = false → f j = none) →
      l.filterMap f = (l.filter q).filterMap f := by
  intro l
  induction l with
  | nil => simp
  | cons a t ih =>
    intro h
    have ih' := ih (fun j hj => h j (List.mem_cons_of_mem a hj))
    by_cases hq : q a = true
    · rw [List.filter_cons_of_pos hq, List.filterMap_cons, List.filterMap_cons]
      cases hfa : f a with
      | none => exact ih'
      | some b => rw [ih']
    · have hfa : f a = none :=
        h a (List.mem_cons_self a t) (Bool.not_eq_true _ ▸ hq)
      rw [List.filter_cons_of_neg hq, List.filterMap_cons, hfa]
      exact ih'

/-- **C9** (amended): in the source the `costs` dictionary is computed over
the graph *before* the pruning (the claim's stated order is wrong), but
because pruning removes only whole connected components — which no shortest
path can cross — the cost entries of every vertex of the pruned graph
coincide exactly with the all-pairs shortest-path costs of the pruned graph,
so the greedy selection works with costs that are identical to costs
computed over the pruned graph. -/
theorem C9_costs_used_equal_pruned_costs (g : WGraph)
    (hsym : ∀ u v, g.weight u v = g.weight v u) :
    ∀ i ∈ (pruneGraph g).nodes, costsFn g i = costsFn (pruneGraph g) i := by
  intro i hi
  unfold costsFn
  have hstep1 : g.nodes.filterMap
        (fun j => if j = i then none else (spCost g i j).map (fun c => (j, c)))
      = ((pruneGraph g).nodes).filterMap
        (fun j => if j = i then none else
          (spCost g i j).map (fun c => (j, c))) := by
    apply filterMap_eq_filterMap_filter
    intro j hj hq
    by_cases hji : j = i
    · rw [if_pos hji]
    · rw [if_neg hji]
      have hjnp : j ∉ (pruneGraph g).nodes := by
        intro hmem
        have := (mem_pruneGraph_iff.mp hmem).2
        rw [decide_eq_true this] at hq
        exact Bool.true_eq_false.mp hq
      rw [spCost_eq_none_of_not_pruned hsym hi hjnp]
      rfl
  rw [hstep1]
  have hspc : ∀ j, spCost g i j = spCost (pruneGraph g) i j := fun j =>
    spCost_prune hsym hi
  simp only [hspc]

/-- Witness for the amended C9 at the concrete graph `egW` and vertex 0. -/
theorem C9_witness :
    0 ∈ (pruneGraph egW).nodes ∧ costsFn egW 0 = costsFn (pruneGraph egW) 0 :=
  ⟨by decide, C9_costs_used_equal_pruned_costs egW egW_symm 0 (by decide)⟩

/-! ### The goal dispatcher of `start_run` (lines 217-273) -/

/-- A planar position. -/
structure Point where
  x : ℚ
  y : ℚ
  deriving DecidableEq

/-- A waypoint: the target pose's position. The uniformly random yaw attached
on lines 200-204 plays no role in any verified property and is not tracked. -/
abbrev Waypoint := Point

/-- The distance check of lines 250-253:
`np.sqrt((gx-cx)**2 + (gy-cy)**2) < goal_tolerance`, modelled exactly over
`ℚ`: for every tolerance, `sqrt(dx² + dy²) < tol` over the reals holds iff
`0 < tol ∧ dx² + dy² < tol²` (see `distLtTol_correct`). -/
def distLtTol (gp cp : Point) (tol : ℚ) : Bool :=
  decide (0 < tol) && decide ((gp.x - cp.x) ^ 2 + (gp.y - cp.y) ^ 2 < tol ^ 2)

/-- `distLtTol` is exactly the real-number comparison of the source. -/
theorem distLtTol_correct (gp cp : Point) (tol : ℚ) :
    distLtTol gp cp tol = true ↔
      Real.sqrt (((gp.x - cp.x : ℚ) : ℝ) ^ 2 + ((gp.y - cp.y : ℚ) : ℝ) ^ 2)
        < (tol : ℝ) := by
  unfold distLtTol
  rw [Bool.and_eq_true, decide_eq_true_eq, decide_eq_true_eq]
  constructor
  · rintro ⟨htol, hlt⟩
    have htol' : (0 : ℝ) < (tol : ℝ) := by exact_mod_cast htol
    rw [Real.sqrt_lt' htol']
    push_cast
    exact_mod_cast hlt
  · intro h
    have hnn : (0 : ℝ) ≤ ((gp.x - cp.x : ℚ) : ℝ) ^ 2 + ((gp.y - cp.y : ℚ) : ℝ) ^ 2 := by
      positivity
    have htol' : (0 : ℝ) < (tol : ℝ) := lt_of_le_of_lt (Real.sqrt_nonneg _) h
    refine ⟨by exact_mod_cast htol', ?_⟩
    rw [Real.sqrt_lt' htol'] at h
    exact_mod_cast h

/-- The run variables of the supervisor (`__init__` lines 95-108), restricted
to those the verified properties mention. `num_goals = None` before planning
is modelled as `0`; of the buffered telemetry only the ground-truth rows are
tracked (by their positions), since only they interact with the dispatcher. -/
structure SupState where
  runStarted : Bool
  traversalPathPoses : List Waypoint
  numGoals : ℕ
  currentGoal : Option Waypoint
  goalSentCount : ℕ
  goalSucceededCount : ℕ
  goalFailedCount : ℕ
  goalRejectedCount : ℕ
  latestGroundTruthPose : Option Point
  groundTruthPosesRows : List Point
  events : List String
  deriving DecidableEq

/-- The state built by `__init__` (lines 95-108). -/
def initSupState : SupState where
  runStarted := false
  traversalPathPoses := []
  numGoals := 0
  currentGoal := none
  goalSentCount := 0
  goalSucceededCount := 0
  goalFailedCount := 0
  goalRejectedCount := 0
  latestGroundTruthPose := none
  groundTruthPosesRows := []
  events := []

/-- `write_event` (lines 430-438): append one named event to the run event
ledger. -/
def writeEvent (s : SupState) (e : String) : SupState :=
  { s with events := s.events ++ [e] }

/-- The environment's responses consumed by one iteration of the dispatch
loop: whether `wait_for_server` succeeded within its 5 s bound (line 226),
whether `wait_for_result` returned within the waypoint timeout (line 244),
and whether the terminal action state is `GoalStatus.SUCCEEDED` (line 249). -/
structure StepInput where
  serverAvailable : Bool
  resultWithinTimeout : Bool
  navSucceeded : Bool
  deriving DecidableEq

/-- Outcome of one iteration of the dispatch loop: fall through to
`rospy.sleep(1.0)` and loop again (line 273), return after `run_completed`
(lines 268-271), raise `RunFailException` (lines 228, 232, 247), or raise an
uncaught `AttributeError`/`ValueError` (line 251's dereference of a `None`
ground-truth message). -/
inductive StepResult where
  | continueRun (s : SupState)
  | completed (s : SupState)
  | runFail (msg : String) (s : SupState)
  | crashed (s : SupState)
  deriving DecidableEq

/-- Lines 265-273: clear the current goal, then either complete the run when
the tour is exhausted or pause and continue. -/
def finishIteration (s : SupState) : StepResult :=
  let s' := { s with currentGoal := none }
  if s'.traversalPathPoses = [] then
    StepResult.completed (writeEvent s' "run_completed")
  else
    StepResult.continueRun s'

/-- One iteration of the goal dispatch loop of `start_run` (lines 223-273):
wait for the action server, pop the next waypoint from the front of the tour,
send it, count it as sent, wait for the result within the waypoint timeout,
and classify the outcome — a nominal success is accepted only when the most
recent ground-truth position is within tolerance of the commanded goal
position. -/
def dispatchStep (tol : ℚ) (s : SupState) (inp : StepInput) : StepResult :=
  if inp.serverAvailable = false then
    StepResult.runFail "navigate_to_pose action server not available"
      (writeEvent s "failed_to_communicate_with_navigation_node")
  else
    match s.traversalPathPoses with
    | [] =>
      StepResult.runFail
        "insufficient number of poses in traversal path, can not send goal"
        (writeEvent s "insufficient_number_of_poses_in_traversal_path")
    | goal :: rest =>
      let s1 := { s with traversalPathPoses := rest, currentGoal := some goal }
      let s2 := writeEvent s1 "target_pose_set"
      let s3 := { s2 with goalSentCount := s2.goalSentCount + 1 }
      if inp.resultWithinTimeout = false then
        StepResult.runFail "waypoint_timeout"
          (writeEvent (writeEvent s3 "waypoint_timeout") "supervisor_finished")
      else if inp.navSucceeded then
        match s3.latestGroundTruthPose with
        | none => StepResult.crashed s3
        | some cur =>
          if distLtTol goal cur tol then
            finishIteration
              { writeEvent s3 "target_pose_reached" with
                goalSucceededCount := s3.goalSucceededCount + 1 }
          else
            finishIteration
              { writeEvent s3 "target_pose_not_reached" with
                goalFailedCount := s3.goalFailedCount + 1 }
      else
        finishIteration
          { writeEvent s3 "target_pose_not_reached" with
            goalFailedCount := s3.goalFailedCount + 1 }

/-- The dispatch loop run against a finite script of environment responses;
`Sum.inr` returns the current state when the script is exhausted while the
loop would continue. -/
def runLoop (tol : ℚ) (s : SupState) : List StepInput → StepResult ⊕ SupState
  | [] => Sum.inr s
  | inp :: rest =>
    match dispatchStep tol s inp with
    | StepResult.continueRun s' => runLoop tol s' rest
    | r => Sum.inl r

/-- Lines 199-204: a tour vertex becomes a pose at the vertex position. -/
def toWaypoint (g : WGraph) (n : ℕ) : Waypoint :=
  ⟨(g.pos n).1, (g.pos n).2⟩

/-- The state with which `start_run` enters the dispatch loop after a
successful planning (lines 197-220): the tour converted to poses,
`num_goals` fixed to the tour length, `run_start` written, `run_started`
set. -/
def postPlanState (g : WGraph) (tour : List ℕ) (s : SupState) : SupState :=
  { writeEvent
      { s with traversalPathPoses := tour.map (toWaypoint g),
               numGoals := tour.length } "run_start"
    with runStarted := true }

/-- `start_run` (lines 152-273) after the wait for the first scan: plan the
traversal (lines 166-195) — a planning failure writes its event and raises
`RunFailException` before any goal is dispatched — then convert the tour to
poses (lines 197-204), record `num_goals` (line 217), write `run_start`, set
`run_started` (lines 219-220) and enter the dispatch loop. -/
def startRun (g : WGraph) (startNode : ℕ) (tol : ℚ) (s : SupState)
    (script : List StepInput) : StepResult ⊕ SupState :=
  match planTraversal g startNode with
  | PlanResult.insufficientNodes =>
    Sum.inl (StepResult.runFail
      "insufficient number of nodes in deleaved_reduced_voronoi_graph, can not generate traversal path"
      (writeEvent s "insufficient_number_of_nodes_in_deleaved_reduced_voronoi_graph"))
  | PlanResult.valueError => Sum.inl (StepResult.crashed s)
  | PlanResult.ok tour =>
    runLoop tol (postPlanState g tour s) script

/-- `ground_truth_pose_callback` (lines 377-393): the latest-ground-truth
reference is updated on *every* message, before the `run_started` gate; the
buffered row append is gated. Only the planar position of the odometry
message is tracked. -/
def groundTruthPoseCallback (s : SupState) (msg : Point) : SupState :=
  let s1 := { s with latestGroundTruthPose := some msg }
  if s1.runStarted = false then
    s1
  else
    { s1 with groundTruthPosesRows := s1.groundTruthPosesRows ++ [msg] }

/-- C2's counter equation: every sent goal has been classified. -/
def counterInv (s : SupState) : Prop :=
  s.goalSentCount = s.goalSucceededCount + s.goalFailedCount

/-- C2's tour-length equation: remaining waypoints + goals sent = the tour
length fixed at planning time. -/
def tourInv (s : SupState) : Prop :=
  s.traversalPathPoses.length + s.goalSentCount = s.numGoals

/-! ### The `main` lifecycle (lines 35-58) -/

/-- The externally visible calls `main` can make. -/
inductive MainAction where
  | constructNode
  | startRunCall
  | spinCall
  | rosShutdownCb
  | printErrorCall
  | endRunCall
  | signalShutdownCall
  deriving DecidableEq

/-- How the `try` block of `main` terminates once construction succeeded. -/
inductive RunTermination where
  | normalCompletion
  | runTimeout
  | keyboardInterrupt
  | runFailException (msg : String)
  | otherException
  deriving DecidableEq

/-- The call trace of `main` (lines 35-58) as a function of whether the
constructor succeeded and how the `try` block terminated.  On normal
completion the dispatch loop already signalled shutdown (`run_completed`,
line 270) so `rospy.spin()` returns at once; on run timeout the watchdog
(lines 293-297) signalled shutdown, with the same effect; `KeyboardInterrupt`
runs `ros_shutdown_callback`; `RunFailException` and any other exception are
printed. In every case the `finally` block runs `end_run()` iff `node` was
constructed, and signals shutdown unless it already happened. -/
def mainTrace (constructOk : Bool) (term : RunTermination) : List MainAction :=
  if constructOk then
    [MainAction.constructNode, MainAction.startRunCall] ++
      (match term with
        | RunTermination.normalCompletion => [MainAction.spinCall]
        | RunTermination.runTimeout => [MainAction.spinCall]
        | RunTermination.keyboardInterrupt => [MainAction.rosShutdownCb]
        | RunTermination.runFailException _ => [MainAction.printErrorCall]
        | RunTermination.otherException => [MainAction.printErrorCall]) ++
      [MainAction.endRunCall] ++
      (match term with
        | RunTermination.normalCompletion => []
        | RunTermination.runTimeout => []
        | _ => [MainAction.signalShutdownCall])
  else
    [MainAction.constructNode, MainAction.printErrorCall,
      MainAction.signalShutdownCall]

/-! ### `amcl_particles_callback` (lines 315-335) -/

/-- The `poses_str` accumulation of lines 320-328: for each particle the
three fields are joined with `', '`, but consecutive particles are
concatenated with **no** separator in between (`poses_str += ...`). The
particles are given as planar `(x, y, yaw)` triples (the yaw decoding from
the quaternion, lines 323-327, is not modelled); `fmt` renders one number
the way `str` does. -/
def posesStr (fmt : ℚ → String) (poses : List (ℚ × ℚ × ℚ)) : String :=
  poses.foldl
    (fun acc pp => acc ++ String.intercalate ", " [fmt pp.1, fmt pp.2.1, fmt pp.2.2])
    ""

/-- The line appended to `amcl_particles.csv` by one callback invocation
(lines 330-335): `"{t}, {frame_id}, {n}, {poses}\n"`. -/
def amclLine (fmt : ℚ → String) (t : String) (frameId : String)
    (poses : List (ℚ × ℚ × ℚ)) : String :=
  t ++ ", " ++ frameId ++ ", " ++ toString poses.length ++ ", " ++
    posesStr fmt poses ++ "\n"

/-- A rendering of integer-valued rationals, standing in for Python `str`
on the witness inputs. -/
def qstr (q : ℚ) : String :=
  toString q.num

/-! ### `ps_snapshot_timer_callback` (lines 395-419) -/

/-- `del d[k]` (lines 406-408): remove the key, or `KeyError` (`none`) when
it is absent. Dictionaries are tracked by their key lists. -/
def delKey (d : List String) (k : String) : Option (List String) :=
  if k ∈ d then some (d.erase k) else none

/-- Lines 405-412: strip `connections`, `memory_maps` and `environ` in
order; a `KeyError` at any of the three aborts the stripping (`none`, and
the process is not appended). -/
def stripProcDict (d : List String) : Option (List String) := do
  let d1 ← delKey d "connections"
  let d2 ← delKey d1 "memory_maps"
  delKey d2 "environ"

/-- Lines 398-412: build the snapshot list over the statically captured
process list. `none` stands for a process whose `as_dict` raised
`psutil.NoSuchProcess` (skipped, line 402); a process whose stripping raises
`KeyError` is skipped as well. -/
def psSnapshotList (procs : List (Option (List String))) : List (List String) :=
  procs.foldr
    (fun p acc =>
      match p with
      | none => acc
      | some d =>
        match stripProcDict d with
        | none => acc
        | some d' => d' :: acc)
    []

/-- What one tick leaves on disk: the file index used in
`ps_{i:08d}.pkl` and its content — `none` when `pickle.dump` raised
`TypeError` (the file was created by `open(..., 'wb')` but holds no complete
snapshot, lines 413-417). -/
structure PsFile where
  idx : ℕ
  content : Option (List (List String))
  deriving DecidableEq

/-- One invocation of `ps_snapshot_timer_callback` (lines 395-419): write the
snapshot file named by the current counter, then increment the counter —
also on a serialization failure, since line 419 is outside the `try`. -/
def psSnapshotTick (procs : List (Option (List String))) (dumpOk : Bool)
    (cnt : ℕ) : PsFile × ℕ :=
  (⟨cnt, if dumpOk then some (psSnapshotList procs) else none⟩, cnt + 1)

/-- A sequence of ticks, each with its process query results and whether the
dump serializes. -/
def psSnapshotRun (ticks : List (List (Option (List String)) × Bool))
    (cnt : ℕ) : List PsFile :=
  match ticks with
  | [] => []
  | t :: ts =>
    (psSnapshotTick t.1 t.2 cnt).1 :: psSnapshotRun ts (psSnapshotTick t.1 t.2 cnt).2

/-- A classified iteration tail (`finishIteration`) only clears the current
goal and possibly appends `run_completed`: all counters, the remaining tour
and `num_goals` pass through unchanged. -/
theorem finishIteration_cases {S s' : SupState}
    (h : finishIteration S = StepResult.continueRun s' ∨
         finishIteration S = StepResult.completed s') :
    s'.traversalPathPoses = S.traversalPathPoses ∧
    s'.goalSentCount = S.goalSentCount ∧
    s'.goalSucceededCount = S.goalSucceededCount ∧
    s'.goalFailedCount = S.goalFailedCount ∧
    s'.numGoals = S.numGoals := by
  unfold finishIteration at h
  dsimp only [writeEvent] at h
  split at h
  · rcases h with h | h
    · simp at h
    · simp only [StepResult.completed.injEq] at h
      rw [← h]
      exact ⟨rfl, rfl, rfl, rfl, rfl⟩
  · rcases h with h | h
    · simp only [StepResult.continueRun.injEq] at h
      rw [← h]
      exact ⟨rfl, rfl, rfl, rfl, rfl⟩
    · simp at h

/-- **C2**: with `goal_sent_count = goal_succeeded_count + goal_failed_count`
and `remaining tour + goal_sent_count = num_goals` holding before an
iteration, an iteration that classifies its goal (continue or completed)
re-establishes both equations, increments `goal_sent_count` by exactly one,
pops exactly the front waypoint, and increments exactly one of
`goal_succeeded_count`/`goal_failed_count` by one; every aborting iteration
(`RunFailException` or crash) still preserves the tour-length equation. -/
theorem C2_dispatch_counter_invariants (tol : ℚ) (s : SupState)
    (inp : StepInput) (hc : counterInv s) (ht : tourInv s) :
    (∀ (g : WGraph) (tour : List ℕ), s.goalSentCount = 0 →
      tourInv (postPlanState g tour s) ∧ counterInv (postPlanState g tour s)) ∧
    (∀ s', (dispatchStep tol s inp = StepResult.continueRun s' ∨
        dispatchStep tol s inp = StepResult.completed s') →
      counterInv s' ∧ tourInv s' ∧
        s'.goalSentCount = s.goalSentCount + 1 ∧
        s'.traversalPathPoses = s.traversalPathPoses.tail ∧
        s'.goalSucceededCount + s'.goalFailedCount
          = s.goalSucceededCount + s.goalFailedCount + 1 ∧
        (s'.goalSucceededCount = s.goalSucceededCount ∨
          s'.goalFailedCount = s.goalFailedCount)) ∧
    (∀ e s', dispatchStep tol s inp = StepResult.runFail e s' → tourInv s') ∧
    (∀ s', dispatchStep tol s inp = StepResult.crashed s' → tourInv s') := by
  refine ⟨?_, ?_⟩
  · intro g tour h0
    unfold tourInv counterInv postPlanState writeEvent
    dsimp only
    rw [List.length_map, h0]
    unfold counterInv at hc
    rw [h0] at hc
    exact ⟨rfl, hc⟩
  unfold counterInv at hc ⊢
  unfold tourInv at ht ⊢
  unfold dispatchStep
  by_cases hsa : inp.serverAvailable = false
  · rw [if_pos hsa]
    refine ⟨?_, ?_, ?_⟩
    · rintro s' (h | h) <;> simp at h
    · intro e s' h
      simp only [StepResult.runFail.injEq] at h
      rw [← h.2]
      simpa [writeEvent] using ht
    · intro s' h
      simp at h
  · rw [if_neg hsa]
    cases hl : s.traversalPathPoses with
    | nil =>
      rw [hl] at ht
      refine ⟨?_, ?_, ?_⟩
      · rintro s' (h | h) <;> simp at h
      · intro e s' h
        simp only [StepResult.runFail.injEq] at h
        rw [← h.2]
        simpa [writeEvent, hl] using ht
      · intro s' h
        simp at h
    | cons goal rest =>
      rw [hl] at ht
      simp only [List.length_cons] at ht
      dsimp only [writeEvent]
      by_cases hto : inp.resultWithinTimeout = false
      · rw [if_pos hto]
        refine ⟨?_, ?_, ?_⟩
        · rintro s' (h | h) <;> simp at h
        · intro e s' h
          simp only [StepResult.runFail.injEq] at h
          rw [← h.2]
          simp
          omega
        · intro s' h
          simp at h
      · rw [if_neg hto]
        by_cases hns : inp.navSucceeded = true
        · rw [if_pos hns]
          cases hgt : s.latestGroundTruthPose with
          | none =>
            dsimp only
            refine ⟨?_, ?_, ?_⟩
            · rintro s' (h | h) <;> simp at h
            · intro e s' h
              simp at h
            · intro s' h
              simp only [StepResult.crashed.injEq] at h
              rw [← h]
              simp
              omega
          | some cur =>
            dsimp only
            by_cases hd : distLtTol goal cur tol = true
            · rw [if_pos hd]
              refine ⟨?_, ?_, ?_⟩
              · intro s' hres
                obtain ⟨e1, e2, e3, e4, e5⟩ := finishIteration_cases hres
                dsimp only at e1 e2 e3 e4 e5
                have hlen : s'.traversalPathPoses.length = rest.length := by
                  rw [e1]
                refine ⟨by omega, by omega, by omega, by simpa using e1,
                  by omega, Or.inr e4⟩
              · intro e s' h
                unfold finishIteration at h
                dsimp only [writeEvent] at h
                split at h <;> simp at h
              · intro s' h
                unfold finishIteration at h
                dsimp only [writeEvent] at h
                split at h <;> simp at h
            · rw [if_neg hd]
              refine ⟨?_, ?_, ?_⟩
              · intro s' hres
                obtain ⟨e1, e2, e3, e4, e5⟩ := finishIteration_cases hres
                dsimp only at e1 e2 e3 e4 e5
                have hlen : s'.traversalPathPoses.length = rest.length := by
                  rw [e1]
                refine ⟨by omega, by omega, by omega, by simpa using e1,
                  by omega, Or.inl e3⟩
              · intro e s' h
                unfold finishIteration at h
                dsimp only [writeEvent] at h
                split at h <;> simp at h
              · intro s' h
                unfold finishIteration at h
                dsimp only [writeEvent] at h
                split at h <;> simp at h
        · rw [if_neg hns]
          refine ⟨?_, ?_, ?_⟩
          · intro s' hres
            obtain ⟨e1, e2, e3, e4, e5⟩ := finishIteration_cases hres
            dsimp only at e1 e2 e3 e4 e5
            have hlen : s'.traversalPathPoses.length = rest.length := by
              rw [e1]
            refine ⟨by omega, by omega, by omega, by simpa using e1,
              by omega, Or.inl e3⟩
          · intro e s' h
            unfold finishIteration at h
            dsimp only [writeEvent] at h
            split at h <;> simp at h
          · intro s' h
            unfold finishIteration at h
            dsimp only [writeEvent] at h
            split at h <;> simp at h

/-- **C3**: when the navigation outcome is nominally successful, the goal is
classified by the ground-truth distance check: if the Euclidean distance
between the commanded goal position and the most recently observed
ground-truth position is not below the tolerance, the goal counts as failed
(`target_pose_not_reached`, `goal_failed_count` incremented) and the run
continues (or completes) instead of aborting; if the distance is below the
tolerance it counts as succeeded (`target_pose_reached`). -/
theorem C3_success_reclassified_by_distance (tol : ℚ) (s : SupState)
    (inp : StepInput) (goal : Waypoint) (rest : List Waypoint) (cur : Point)
    (hsa : inp.serverAvailable = true) (hrt : inp.resultWithinTimeout = true)
    (hns : inp.navSucceeded = true)
    (hl : s.traversalPathPoses = goal :: rest)
    (hg : s.latestGroundTruthPose = some cur) :
    (distLtTol goal cur tol = false →
      ∃ s', (dispatchStep tol s inp = StepResult.continueRun s' ∨
          dispatchStep tol s inp = StepResult.completed s') ∧
        s'.goalFailedCount = s.goalFailedCount + 1 ∧
        s'.goalSucceededCount = s.goalSucceededCount ∧
        s'.events = s.events ++ ["target_pose_set", "target_pose_not_reached"]
          ++ (if rest = [] then ["run_completed"] else [])) ∧
    (distLtTol goal cur tol = true →
      ∃ s', (dispatchStep tol s inp = StepResult.continueRun s' ∨
          dispatchStep tol s inp = StepResult.completed s') ∧
        s'.goalSucceededCount = s.goalSucceededCount + 1 ∧
        s'.goalFailedCount = s.goalFailedCount ∧
        s'.events = s.events ++ ["target_pose_set", "target_pose_reached"]
          ++ (if rest = [] then ["run_completed"] else [])) := by
  have hsa' : ¬ inp.serverAvailable = false := by rw [hsa]; simp
  have hto' : ¬ inp.resultWithinTimeout = false := by rw [hrt]; simp
  unfold dispatchStep
  rw [if_neg hsa', hl]
  dsimp only [writeEvent]
  rw [if_neg hto', if_pos hns, hg]
  dsimp only
  constructor
  · intro hd
    rw [if_neg (by rw [hd]; simp)]
    unfold finishIteration
    dsimp only [writeEvent]
    by_cases hrest : rest = []
    · subst hrest
      rw [if_pos rfl]
      exact ⟨_, Or.inr rfl, by simp, by simp, by simp⟩
    · rw [if_neg hrest]
      exact ⟨_, Or.inl rfl, by simp, by simp, by simp [hrest]⟩
  · intro hd
    rw [if_pos hd]
    unfold finishIteration
    dsimp only [writeEvent]
    by_cases hrest : rest = []
    · subst hrest
      rw [if_pos rfl]
      exact ⟨_, Or.inr rfl, by simp, by simp, by simp⟩
    · rw [if_neg hrest]
      exact ⟨_, Or.inl rfl, by simp, by simp, by simp [hrest]⟩

/-- **C4**: exceeding the waypoint timeout aborts fatally with no retry:
`RunFailException("waypoint_timeout")` is raised after writing the event
`waypoint_timeout` immediately followed by `supervisor_finished`, and —
through `main`'s `finally` — finalization (`end_run`) runs exactly once. -/
theorem C4_waypoint_timeout_fatal (tol : ℚ) (s : SupState) (inp : StepInput)
    (goal : Waypoint) (rest : List Waypoint)
    (hsa : inp.serverAvailable = true)
    (hto : inp.resultWithinTimeout = false)
    (hl : s.traversalPathPoses = goal :: rest) :
    (∃ s', dispatchStep tol s inp = StepResult.runFail "waypoint_timeout" s' ∧
      s'.events = s.events ++ ["target_pose_set", "waypoint_timeout",
        "supervisor_finished"]) ∧
    (mainTrace true (RunTermination.runFailException "waypoint_timeout")).count
      MainAction.endRunCall = 1 := by
  constructor
  · have hsa' : ¬ inp.serverAvailable = false := by rw [hsa]; simp
    unfold dispatchStep
    rw [if_neg hsa', hl]
    dsimp only [writeEvent]
    rw [if_pos hto]
    exact ⟨_, rfl, by simp⟩
  · rfl

/-- **C5**: when the graph left after pruning has fewer than two vertices,
`start_run` writes the exact event
`insufficient_number_of_nodes_in_deleaved_reduced_voronoi_graph`, raises
`RunFailException` and never dispatches a goal: `goal_sent_count` is
unchanged and no further event (in particular no `target_pose_set`) is
written. -/
theorem C5_insufficient_nodes_planning_failure (g : WGraph) (startNode : ℕ)
    (tol : ℚ) (s : SupState) (script : List StepInput)
    (h2 : (pruneGraph g).nodes.length < 2) :
    ∃ s', startRun g startNode tol s script = Sum.inl (StepResult.runFail
        "insufficient number of nodes in deleaved_reduced_voronoi_graph, can not generate traversal path"
        s') ∧
      s'.goalSentCount = s.goalSentCount ∧
      s'.events = s.events ++
        ["insufficient_number_of_nodes_in_deleaved_reduced_voronoi_graph"] := by
  unfold startRun planTraversal
  rw [if_pos h2]
  exact ⟨_, rfl, rfl, rfl⟩

/-- **C10**: if a goal's outcome is `SUCCEEDED` while no ground-truth
message has ever been received, the distance check dereferences the
still-`None` reference and the iteration ends in an uncaught error — the
goal is never classified (neither counter moves, only `target_pose_set` was
written) — and the reference is updated by every inbound ground-truth
message, also before `run_started` is set. -/
theorem C10_none_ground_truth_crash (tol : ℚ) (s : SupState)
    (inp : StepInput) (goal : Waypoint) (rest : List Waypoint)
    (hsa : inp.serverAvailable = true) (hrt : inp.resultWithinTimeout = true)
    (hns : inp.navSucceeded = true)
    (hl : s.traversalPathPoses = goal :: rest)
    (hg : s.latestGroundTruthPose = none) :
    (∃ s', dispatchStep tol s inp = StepResult.crashed s' ∧
      s'.goalSentCount = s.goalSentCount + 1 ∧
      s'.goalSucceededCount = s.goalSucceededCount ∧
      s'.goalFailedCount = s.goalFailedCount ∧
      s'.events = s.events ++ ["target_pose_set"]) ∧
    (∀ (s₀ : SupState) (msg : Point),
      (groundTruthPoseCallback s₀ msg).latestGroundTruthPose = some msg) := by
  constructor
  · have hsa' : ¬ inp.serverAvailable = false := by rw [hsa]; simp
    have hto' : ¬ inp.resultWithinTimeout = false := by rw [hrt]; simp
    unfold dispatchStep
    rw [if_neg hsa', hl]
    dsimp only [writeEvent]
    rw [if_neg hto', if_pos hns, hg]
    dsimp only
    exact ⟨_, rfl, rfl, rfl, rfl, rfl⟩
  · intro s₀ msg
    unfold groundTruthPoseCallback
    dsimp only
    split <;> rfl

/-- **C6**: `main`'s `try/except/finally` (lines 41-58) runs `end_run` —
the serialization of the three buffered pose tables — exactly once on every
termination path once construction succeeded (normal completion, run
timeout, `KeyboardInterrupt`, `RunFailException`, any other exception), and
never when the constructor itself raised. -/
theorem C6_finalization_exactly_once (term : RunTermination) :
    (mainTrace true term).count MainAction.endRunCall = 1 ∧
    (mainTrace false term).count MainAction.endRunCall = 0 := by
  cases term <;> exact ⟨rfl, rfl⟩

/-- **C7** (code behaviour at the failing input): with two particles
(1, 2, 3) and (4, 5, 6), `amcl_particles_callback` writes a line in which
the heading of the first particle and the x of the second are concatenated
with *no* separator (`...2, 34, 5...`): `poses_str += ', '.join(...)` never
inserts anything between particles. -/
theorem C7_no_separator_between_particles :
    amclLine qstr "0.1" "map" [(1, 2, 3), (4, 5, 6)]
        = "0.1, map, 2, 1, 2, 34, 5, 6\n" ∧
      amclLine qstr "0.1" "map" [(1, 2, 3), (4, 5, 6)]
        ≠ "0.1, map, 2, 1, 2, 3, 4, 5, 6\n" := by
  constructor <;> decide

theorem psSnapshotRun_idx
    (ticks : List (List (Option (List String)) × Bool)) :
    ∀ c, (psSnapshotRun ticks c).map PsFile.idx = List.range' c ticks.length := by
  induction ticks with
  | nil => intro c; rfl
  | cons t ts ih =>
    intro c
    simp only [psSnapshotRun, psSnapshotTick, List.map_cons, List.length_cons,
      List.range']
    rw [ih (c + 1)]

theorem psSnapshotList_all_dead (n : ℕ) :
    psSnapshotList (List.replicate n none) = [] := by
  induction n with
  | zero => rfl
  | succ n ih => simpa [psSnapshotList, List.replicate] using ih

/-- **C8**: over any sequence of snapshot ticks the written files are
numbered contiguously from 0 with no gaps — the counter increments by
exactly one on every tick, a serialization failure included, since the
increment is outside the `try` — and a tick on which every tracked process
has exited still writes a file whose content is the empty list. -/
theorem C8_snapshot_files_contiguous
    (ticks : List (List (Option (List String)) × Bool)) (n cnt : ℕ)
    (t : List (Option (List String))) (dumpOk : Bool) :
    (psSnapshotRun ticks 0).map PsFile.idx = List.range ticks.length ∧
    (psSnapshotTick t dumpOk cnt).2 = cnt + 1 ∧
    (psSnapshotTick (List.replicate n none) true cnt).1.content = some [] := by
  refine ⟨?_, rfl, ?_⟩
  · rw [psSnapshotRun_idx ticks 0, List.range_eq_range']
  · simp [psSnapshotTick, psSnapshotList_all_dead]

/-! ### Concrete witnesses for the dispatcher claims -/

/-- Environment responses: server reachable, result in time, nav success. -/
def egInput : StepInput where
  serverAvailable := true
  resultWithinTimeout := true
  navSucceeded := true

/-- A dispatcher state mid-run: one goal classified, one waypoint left. -/
def egState : SupState where
  runStarted := true
  traversalPathPoses := [⟨1, 0⟩]
  numGoals := 2
  currentGoal := none
  goalSentCount := 1
  goalSucceededCount := 1
  goalFailedCount := 0
  goalRejectedCount := 0
  latestGroundTruthPose := some ⟨0, 0⟩
  groundTruthPosesRows := []
  events := []

/-- Witness for C2 at a concrete state and inputs. -/
theorem C2_witness :
    counterInv egState ∧ tourInv egState ∧
      ((∀ (g : WGraph) (tour : List ℕ), egState.goalSentCount = 0 →
        tourInv (postPlanState g tour egState) ∧
          counterInv (postPlanState g tour egState)) ∧
      (∀ s', (dispatchStep 1 egState egInput = StepResult.continueRun s' ∨
          dispatchStep 1 egState egInput = StepResult.completed s') →
        counterInv s' ∧ tourInv s' ∧
          s'.goalSentCount = egState.goalSentCount + 1 ∧
          s'.traversalPathPoses = egState.traversalPathPoses.tail ∧
          s'.goalSucceededCount + s'.goalFailedCount
            = egState.goalSucceededCount + egState.goalFailedCount + 1 ∧
          (s'.goalSucceededCount = egState.goalSucceededCount ∨
            s'.goalFailedCount = egState.goalFailedCount)) ∧
      (∀ e s', dispatchStep 1 egState egInput = StepResult.runFail e s' →
        tourInv s') ∧
      (∀ s', dispatchStep 1 egState egInput = StepResult.crashed s' →
        tourInv s')) :=
  ⟨rfl, rfl, C2_dispatch_counter_invariants 1 egState egInput rfl rfl⟩

/-- The state of the spec's example for C3: commanded goal (10, 0),
tolerance 1/2, latest ground truth (10, 2). -/
def egC3State : SupState :=
  { egState with traversalPathPoses := [⟨10, 0⟩],
                 latestGroundTruthPose := some ⟨10, 2⟩ }

/-- Witness for C3 at the spec's example: distance 2 is not below the
tolerance 1/2, so the nominally succeeded goal is classified failed. -/
theorem C3_witness :
    distLtTol ⟨10, 0⟩ ⟨10, 2⟩ (1/2) = false ∧
    ((distLtTol ⟨10, 0⟩ ⟨10, 2⟩ (1/2) = false →
      ∃ s', (dispatchStep (1/2) egC3State egInput = StepResult.continueRun s' ∨
          dispatchStep (1/2) egC3State egInput = StepResult.completed s') ∧
        s'.goalFailedCount = egC3State.goalFailedCount + 1 ∧
        s'.goalSucceededCount = egC3State.goalSucceededCount ∧
        s'.events = egC3State.events ++
          ["target_pose_set", "target_pose_not_reached"]
          ++ (if ([] : List Waypoint) = [] then ["run_completed"] else [])) ∧
    (distLtTol ⟨10, 0⟩ ⟨10, 2⟩ (1/2) = true →
      ∃ s', (dispatchStep (1/2) egC3State egInput = StepResult.continueRun s' ∨
          dispatchStep (1/2) egC3State egInput = StepResult.completed s') ∧
        s'.goalSucceededCount = egC3State.goalSucceededCount + 1 ∧
        s'.goalFailedCount = egC3State.goalFailedCount ∧
        s'.events = egC3State.events ++
          ["target_pose_set", "target_pose_reached"]
          ++ (if ([] : List Waypoint) = [] then ["run_completed"] else []))) :=
  ⟨by
    rw [distLtTol]
    rw [decide_eq_false (show ¬((10 - 10 : ℚ) ^ 2 + (0 - 2) ^ 2 < (1/2) ^ 2)
      by norm_num)]
    rw [Bool.and_false],
    C3_success_reclassified_by_distance (1/2) egC3State egInput ⟨10, 0⟩ []
      ⟨10, 2⟩ rfl rfl rfl rfl rfl⟩

/-- Environment responses for a waypoint timeout. -/
def egTimeoutInput : StepInput where
  serverAvailable := true
  resultWithinTimeout := false
  navSucceeded := true

/-- Witness for C4 at a concrete state. -/
theorem C4_witness :
    egState.traversalPathPoses = [⟨1, 0⟩] ∧
    ((∃ s', dispatchStep 1 egState egTimeoutInput
          = StepResult.runFail "waypoint_timeout" s' ∧
        s'.events = egState.events ++ ["target_pose_set", "waypoint_timeout",
          "supervisor_finished"]) ∧
      (mainTrace true
          (RunTermination.runFailException "waypoint_timeout")).count
        MainAction.endRunCall = 1) :=
  ⟨rfl, C4_waypoint_timeout_fatal 1 egState egTimeoutInput ⟨1, 0⟩ [] rfl rfl rfl⟩

/-- A graph whose two vertices are isolated: both singleton components are
pruned and planning must fail. -/
def egW2 : WGraph where
  nodes := [0, 1]
  weight := fun _ _ => none
  pos := fun _ => (0, 0)

/-- Witness for C5: on `egW2` the pruned graph is empty and `start_run`
fails before dispatching anything. -/
theorem C5_witness :
    (pruneGraph egW2).nodes.length < 2 ∧
      ∃ s', startRun egW2 0 1 initSupState [egInput] = Sum.inl
          (StepResult.runFail
            "insufficient number of nodes in deleaved_reduced_voronoi_graph, can not generate traversal path"
            s') ∧
        s'.goalSentCount = initSupState.goalSentCount ∧
        s'.events = initSupState.events ++
          ["insufficient_number_of_nodes_in_deleaved_reduced_voronoi_graph"] :=
  ⟨by decide,
    C5_insufficient_nodes_planning_failure egW2 0 1 initSupState [egInput]
      (by decide)⟩

/-- A state in which the run just started and no ground-truth message has
ever arrived. -/
def egC10State : SupState :=
  { initSupState with runStarted := true,
                      traversalPathPoses := [⟨1, 0⟩],
                      numGoals := 1 }

/-- Witness for C10 at a concrete state with no ground truth received. -/
theorem C10_witness :
    egC10State.latestGroundTruthPose = none ∧
    ((∃ s', dispatchStep 1 egC10State egInput = StepResult.crashed s' ∧
        s'.goalSentCount = egC10State.goalSentCount + 1 ∧
        s'.goalSucceededCount = egC10State.goalSucceededCount ∧
        s'.goalFailedCount = egC10State.goalFailedCount ∧
        s'.events = egC10State.events ++ ["target_pose_set"]) ∧
      (∀ (s₀ : SupState) (msg : Point),
        (groundTruthPoseCallback s₀ msg).latestGroundTruthPose = some msg)) :=
  ⟨rfl, C10_none_ground_truth_crash 1 egC10State egInput ⟨1, 0⟩ [] rfl rfl rfl
    rfl rfl⟩
